import Mathlib

/-!
# Verification of `geometer/utils/polynomial.py`

A shallow embedding of the three functions of the module:

* `polyval` — evaluate a dense multivariate coefficient array at a point by
  folding single-variable Horner evaluation along the leading axis
  (`numpy.polynomial.polynomial.polyval` with `tensor=False`);
* `poly_to_np_array` — convert a symbolic polynomial into a dense cubic
  coefficient array of side `total_degree + 1`;
* `np_array_to_poly` — convert a coefficient array back into a polynomial by
  summing `c[i1,...,in] * x1^i1 * ... * xn^in` over the cartesian product of
  the per-axis index ranges.

Dense numpy arrays are modelled by `NpArray`: an explicit shape together with
an entry function on index tuples (entries outside the shape are never read by
any of the embedded operations, which enumerate exactly the in-shape index
tuples, mirroring `itertools.product` / numpy indexing).

Symbolic (sympy) polynomials are modelled by `MPoly`: a list of terms, each an
exponent tuple with a coefficient.  The list may contain repeated or
zero-coefficient terms, exactly as a sympy expression may before
normalisation; the canonical view that `sympy.poly` produces is the
coefficient function `MPoly.coeff`, and sympy's symbolic equality `==` of two
polynomials is coefficient-wise equality `MPoly.eqv`.

Exact rationals stand in for the numeric scalars; the complex `dtype` used as
an intermediate by `poly_to_np_array` together with `np.real_if_close` is
modelled explicitly (`CQ`, `np_real_if_close`) with the tolerance kept as a
parameter.
-/

/-- Error raised by `polyval` (`ValueError: Dimension of point and polynomial
do not match.`). -/
inductive NpError where
  | dimensionMismatch
deriving DecidableEq

/-- Error raised by `sympy.poly` when the expression is not a polynomial in
the supplied generators (`PolynomialError`). -/
inductive SympyError where
  | invalidPolynomial
deriving DecidableEq

/-- A dense numpy array with rational entries: its shape (one length per
axis) and its entry at each index tuple.  Only entries at index tuples inside
the shape are meaningful; the embedded operations read no others. -/
structure NpArray (α : Type) where
  shape : List ℕ
  entry : List ℕ → α

/-- All index tuples of a shape, in `itertools.product` order: the cartesian
product of `range m` over the axis lengths `m`. -/
def indexTuples : List ℕ → List (List ℕ)
  | [] => [[]]
  | m :: s => (List.range m).flatMap fun i => (indexTuples s).map (i :: ·)

/-- Element-wise equality of two arrays: equal shapes and equal entries at
every in-shape index tuple (numpy `array_equal`). -/
def NpArray.eqv {α : Type} (a b : NpArray α) : Prop :=
  a.shape = b.shape ∧ ∀ idx ∈ indexTuples a.shape, a.entry idx = b.entry idx

instance {α : Type} [DecidableEq α] (a b : NpArray α) : Decidable (a.eqv b) :=
  inferInstanceAs (Decidable (_ ∧ _))

/-- A symbolic multivariate polynomial, as a finite sum of monomial terms:
each term is an exponent tuple (one exponent per variable, in the order of
the variable list) with a coefficient.  Terms may repeat and coefficients may
be zero, as in an unnormalised sympy expression. -/
structure MPoly (α : Type) where
  terms : List (List ℕ × α)
deriving DecidableEq

/-- The canonical coefficient of the monomial with exponent tuple `e`: the
sum of the coefficients of all terms carrying exactly that tuple.  This is
`sympy.Poly.coeff_monomial` on the normalised polynomial. -/
def MPoly.coeff {α : Type} [Zero α] [Add α] (p : MPoly α) (e : List ℕ) : α :=
  (p.terms.map fun t => if t.1 = e then t.2 else 0).sum

/-- Symbolic equality of polynomials (sympy `==` after `sympy.poly`
normalisation): the same canonical coefficient at every monomial. -/
def MPoly.eqv {α : Type} [Zero α] [Add α] (p q : MPoly α) : Prop :=
  ∀ e : List ℕ, p.coeff e = q.coeff e

/-- Well-formedness over `n` variables: every term's exponent tuple has one
exponent per variable. -/
def MPoly.wf {α : Type} (n : ℕ) (p : MPoly α) : Prop :=
  ∀ t ∈ p.terms, t.1.length = n

instance {α : Type} (n : ℕ) (p : MPoly α) : Decidable (p.wf n) :=
  inferInstanceAs (Decidable (∀ t ∈ p.terms, t.1.length = n))

/-- `sympy.Poly.total_degree`: the maximum, over the monomials with nonzero
canonical coefficient, of the sum of the exponents (`0` for the zero
polynomial). -/
def MPoly.totalDegree {α : Type} [Zero α] [Add α] [DecidableEq α]
    (p : MPoly α) : ℕ :=
  ((((p.terms.map Prod.fst).filter fun e => p.coeff e ≠ 0).map List.sum).foldr
    max 0)

/-- One pass of `numpy.polynomial.polynomial.polyval(xi, c, tensor=False)`:
the leading axis is consumed, each remaining entry being the Horner
evaluation `c[0,idx] + xi*(c[1,idx] + xi*(...))` along that axis. -/
def polyvalStep {α : Type} [CommRing α] (xi : α) (c : NpArray α) :
    NpArray α :=
  { shape := c.shape.tail
    entry := fun idx =>
      (List.range (c.shape.headD 0)).foldr
        (fun i acc => c.entry (i :: idx) + xi * acc) 0 }

/-- `polyval(x, c)` from `geometer/utils/polynomial.py`: after the dimension
check, fold `polyvalStep` over the components of the point, ending in a
zero-axis array whose single entry is the result. -/
def polyval {α : Type} [CommRing α] (x : List α) (c : NpArray α) :
    Except NpError α :=
  if x.length ≠ c.shape.length then
    Except.error NpError.dimensionMismatch
  else
    Except.ok ((x.foldl (fun c xi => polyvalStep xi c) c).entry [])

/-- The value `x[0]^i1 * ... * x[n-1]^in` of the monomial with exponent tuple
`idx` at the point `x`. -/
def monomialVal {α : Type} [CommRing α] (x : List α) (idx : List ℕ) : α :=
  (List.zipWith (fun xi i => xi ^ i) x idx).prod

/-- Direct algebraic evaluation of a coefficient array at a point: the sum of
`c[i1,...,in] * x[0]^i1 * ... * x[n-1]^in` over all in-shape index tuples. -/
def algEval {α : Type} [CommRing α] (x : List α) (c : NpArray α) : α :=
  ((indexTuples c.shape).map fun idx => c.entry idx * monomialVal x idx).sum

/-- `np_array_to_poly(c, symbols)` with `n = len(symbols)`: for every index
tuple of the array (cartesian product of `range` over the axis lengths, each
axis up to its own length) a term whose exponents are the first `n`
components of the tuple — `for i, s in enumerate(symbols): x *= s**index[i]` —
and whose coefficient is the array entry, the terms being summed into the
polynomial `f`.  (If the array has fewer axes than there are symbols the
source raises `IndexError`; the model is only used with `n ≤ c.shape.length`,
as in the claims.)  The final `sympy.poly(f, symbols)` normalisation is the
identity on the canonical coefficient view `MPoly.coeff`. -/
def np_array_to_poly {α : Type} (c : NpArray α) (n : ℕ) : MPoly α :=
  ⟨(indexTuples c.shape).map fun idx => (idx.take n, c.entry idx)⟩

/-- The array-building core of `poly_to_np_array(p, symbols)` with
`n = len(symbols)`, applied to the already-normalised polynomial
`p = sympy.poly(p, symbols)`: a cubic array of side `total_degree + 1` whose
entry at each index tuple is `p.coeff_monomial(symbols[0]**i1 * ...)`, the
canonical coefficient.  The trailing `np.real_if_close` changes only the
dtype, never a value; it is modelled separately by `np_real_if_close`. -/
def poly_to_np_array_core {α : Type} [Zero α] [Add α] [DecidableEq α]
    (p : MPoly α) (n : ℕ) : NpArray α :=
  { shape := List.replicate n (p.totalDegree + 1)
    entry := fun idx => p.coeff idx }

/-- Model of a complex scalar with exact real and imaginary parts, standing
for the `complex` numpy dtype used as an intermediate by
`poly_to_np_array`. -/
structure CQ (α : Type) where
  re : α
  im : α
deriving DecidableEq

instance {α : Type} [Zero α] : Zero (CQ α) := ⟨⟨0, 0⟩⟩

instance {α : Type} [Add α] : Add (CQ α) :=
  ⟨fun a b => ⟨a.re + b.re, a.im + b.im⟩⟩

/-- `np.real_if_close(c)`: when every entry's imaginary part is within
tolerance of zero the whole array is returned as a real array of the real
parts; otherwise the array is returned unchanged, still complex.  The
tolerance (numpy: `100 * eps` of the dtype) is kept as a parameter. -/
def np_real_if_close {α : Type} [LinearOrderedRing α] (tol : α)
    (c : NpArray (CQ α)) : NpArray α ⊕ NpArray (CQ α) :=
  if ∀ idx ∈ indexTuples c.shape, |(c.entry idx).im| ≤ tol then
    Sum.inl ⟨c.shape, fun idx => (c.entry idx).re⟩
  else
    Sum.inr c

/-- `poly_to_np_array` on a polynomial with complex coefficients: the complex
coefficient array followed by `np.real_if_close`. -/
def poly_to_np_array_cplx {α : Type} [LinearOrderedRing α] [DecidableEq α]
    (tol : α) (p : MPoly (CQ α)) (n : ℕ) : NpArray α ⊕ NpArray (CQ α) :=
  np_real_if_close tol (poly_to_np_array_core p n)

/-- A symbolic (sympy) scalar expression over variables identified by natural
numbers, with rational constants: sums, products, powers with rational
exponents, and quotients.  This is the input type of `poly_to_np_array`
before `sympy.poly` normalises it. -/
inductive SymExpr where
  | const : ℚ → SymExpr
  | svar : ℕ → SymExpr
  | add : SymExpr → SymExpr → SymExpr
  | mul : SymExpr → SymExpr → SymExpr
  | pow : SymExpr → ℚ → SymExpr
  | div : SymExpr → SymExpr → SymExpr
deriving DecidableEq

/-- Whether an expression mentions any variable at all. -/
def SymExpr.hasVar : SymExpr → Bool
  | .const _ => false
  | .svar _ => true
  | .add a b => a.hasVar || b.hasVar
  | .mul a b => a.hasVar || b.hasVar
  | .pow b _ => b.hasVar
  | .div a b => a.hasVar || b.hasVar

/-- Whether an expression fails to be a polynomial in the variables `vs` for
one of the reasons the specification lists: it contains a variable outside
`vs`, a negative or fractional exponent on a subexpression containing a
variable, or a division by a subexpression containing a variable. -/
def SymExpr.badFor (vs : List ℕ) : SymExpr → Bool
  | .const _ => false
  | .svar v => !(decide (v ∈ vs))
  | .add a b => a.badFor vs || b.badFor vs
  | .mul a b => a.badFor vs || b.badFor vs
  | .pow b q => b.badFor vs || (b.hasVar && (q.den != 1 || decide (q < 0)))
  | .div a b => a.badFor vs || b.badFor vs || b.hasVar

/-- The constant polynomial `a` over `n` variables. -/
def MPoly.constP (n : ℕ) (a : ℚ) : MPoly ℚ :=
  ⟨[(List.replicate n 0, a)]⟩

/-- The monomial `x_i` over `n` variables. -/
def MPoly.monomialP (n i : ℕ) : MPoly ℚ :=
  ⟨[((List.replicate n 0).set i 1, 1)]⟩

/-- Sum of two polynomials: the terms side by side. -/
def MPoly.addP (p q : MPoly ℚ) : MPoly ℚ :=
  ⟨p.terms ++ q.terms⟩

/-- Product of two polynomials: all pairwise term products, exponent tuples
added componentwise. -/
def MPoly.mulP (p q : MPoly ℚ) : MPoly ℚ :=
  ⟨p.terms.flatMap fun t =>
    q.terms.map fun u => (List.zipWith (· + ·) t.1 u.1, t.2 * u.2)⟩

/-- `p ^ k` over `n` variables, by repeated multiplication. -/
def MPoly.powP (n : ℕ) (p : MPoly ℚ) : ℕ → MPoly ℚ
  | 0 => MPoly.constP n 1
  | k + 1 => MPoly.mulP p (MPoly.powP n p k)

/-- Multiplication of a polynomial by a scalar. -/
def MPoly.scaleP (a : ℚ) (p : MPoly ℚ) : MPoly ℚ :=
  ⟨p.terms.map fun t => (t.1, a * t.2)⟩

/-- Modelled from the spec: `sympy.poly(expression, symbols)`, the call the
source makes to the external symbolic engine, which is not part of this
repository.  Per the spec it normalises the expression into a polynomial in
exactly the given variables and raises `InvalidPolynomial` when the
expression is not one: a variable outside the list, a negative or fractional
exponent on a variable-containing base, or a division by a
variable-containing expression.  Negative integer powers and quotients with
variable-free denominators are folded into the coefficients. -/
def sympyPoly (vs : List ℕ) : SymExpr → Except SympyError (MPoly ℚ)
  | .const a => Except.ok (MPoly.constP vs.length a)
  | .svar v =>
    if v ∈ vs then Except.ok (MPoly.monomialP vs.length (vs.indexOf v))
    else Except.error SympyError.invalidPolynomial
  | .add a b =>
    match sympyPoly vs a, sympyPoly vs b with
    | Except.ok pa, Except.ok pb => Except.ok (MPoly.addP pa pb)
    | Except.error e, _ => Except.error e
    | Except.ok _, Except.error e => Except.error e
  | .mul a b =>
    match sympyPoly vs a, sympyPoly vs b with
    | Except.ok pa, Except.ok pb => Except.ok (MPoly.mulP pa pb)
    | Except.error e, _ => Except.error e
    | Except.ok _, Except.error e => Except.error e
  | .pow b q =>
    match sympyPoly vs b with
    | Except.error e => Except.error e
    | Except.ok pb =>
      if q.den = 1 ∧ 0 ≤ q.num then
        Except.ok (MPoly.powP vs.length pb q.num.toNat)
      else if b.hasVar then Except.error SympyError.invalidPolynomial
      else if q.den = 1 then
        let v := pb.coeff (List.replicate vs.length 0)
        if v = 0 then Except.error SympyError.invalidPolynomial
        else Except.ok (MPoly.constP vs.length (v ^ q.num))
      else Except.error SympyError.invalidPolynomial
  | .div a b =>
    match sympyPoly vs a, sympyPoly vs b with
    | Except.ok pa, Except.ok pb =>
      if b.hasVar then Except.error SympyError.invalidPolynomial
      else
        let v := pb.coeff (List.replicate vs.length 0)
        if v = 0 then Except.error SympyError.invalidPolynomial
        else Except.ok (MPoly.scaleP v⁻¹ pa)
    | Except.error e, _ => Except.error e
    | Except.ok _, Except.error e => Except.error e

/-- The full `poly_to_np_array(p, symbols)` pipeline on an arbitrary symbolic
expression: `sympy.poly` normalisation first (which may fail), then the
array construction. -/
def poly_to_np_array (vs : List ℕ) (e : SymExpr) :
    Except SympyError (NpArray ℚ) :=
  (sympyPoly vs e).map fun p => poly_to_np_array_core p vs.length

theorem mem_indexTuples {s : List ℕ} {e : List ℕ} :
    e ∈ indexTuples s ↔ List.Forall₂ (· < ·) e s := by
  induction s generalizing e with
  | nil =>
    simp only [indexTuples, List.mem_singleton]
    constructor
    · rintro rfl; exact List.Forall₂.nil
    · intro h; cases h; rfl
  | cons m s ih =>
    simp only [indexTuples, List.mem_flatMap, List.mem_map, List.mem_range]
    constructor
    · rintro ⟨i, hi, idx, hidx, rfl⟩
      exact List.Forall₂.cons hi (ih.mp hidx)
    · intro h
      cases h with
      | cons h₁ h₂ => exact ⟨_, h₁, _, ih.mpr h₂, rfl⟩

theorem length_of_mem_indexTuples {s e : List ℕ} (h : e ∈ indexTuples s) :
    e.length = s.length :=
  (mem_indexTuples.mp h).length_eq

theorem nodup_indexTuples (s : List ℕ) : (indexTuples s).Nodup := by
  induction s with
  | nil => simp [indexTuples]
  | cons m s ih =>
    rw [indexTuples, List.nodup_flatMap]
    refine ⟨fun i _ => ih.map fun a b hab => by injection hab, ?_⟩
    refine List.Pairwise.imp ?_ (List.nodup_range m)
    intro i j hij
    intro e he he'
    simp only [List.mem_map] at he he'
    obtain ⟨a, _, rfl⟩ := he
    obtain ⟨b, _, hb⟩ := he'
    exact hij (by injection hb with h _; exact h.symm)

theorem lsum_ite_single {α : Type} [AddCommMonoid α] {L : List (List ℕ)}
    (hL : L.Nodup) (e : List ℕ) (f : List ℕ → α) :
    (L.map fun x => if x = e then f x else 0).sum =
      if e ∈ L then f e else 0 := by
  induction L with
  | nil => simp
  | cons a L ih =>
    rw [List.map_cons, List.sum_cons, ih hL.of_cons]
    by_cases ha : a = e
    · subst ha
      have : a ∉ L := hL.not_mem
      simp [this]
    · simp only [if_neg ha, List.mem_cons, zero_add]
      by_cases he : e ∈ L
      · simp [he]
      · have hea : ¬e = a := fun h => ha h.symm
        simp [he, hea]

theorem sum_map_flatMap {α β : Type} [AddCommMonoid β] (L : List α)
    (g : α → List (List ℕ)) (f : List ℕ → β) :
    ((L.flatMap g).map f).sum = (L.map fun a => ((g a).map f).sum).sum := by
  induction L with
  | nil => simp
  | cons a L ih => simp [List.flatMap_cons, ih, List.sum_append]

theorem lsum_swap {α β γ : Type} [AddCommMonoid γ] (A : List α) (B : List β)
    (f : α → β → γ) :
    (A.map fun a => (B.map fun b => f a b).sum).sum =
      (B.map fun b => (A.map fun a => f a b).sum).sum := by
  induction A with
  | nil => simp [List.sum_eq_zero]
  | cons a A ih =>
    simp only [List.map_cons, List.sum_cons, ih]
    rw [← List.sum_map_add]

theorem horner_eq_sum {α : Type} [CommRing α] (m : ℕ) (g : ℕ → α) (x : α) :
    (List.range m).foldr (fun i acc => g i + x * acc) 0 =
      ((List.range m).map fun i => g i * x ^ i).sum := by
  induction m generalizing g with
  | zero => simp
  | succ m ih =>
    rw [List.range_succ_eq_map]
    simp only [List.foldr_cons, List.map_cons, List.sum_cons, pow_zero,
      mul_one, List.foldr_map, List.map_map]
    have hfold :
        List.foldr (fun i acc => g (Nat.succ i) + x * acc) 0 (List.range m) =
          ((List.range m).map fun i => g (Nat.succ i) * x ^ i).sum :=
      ih fun i => g (Nat.succ i)
    rw [hfold, ← List.sum_map_mul_left]
    congr 1
    refine congrArg List.sum (List.map_congr_left fun i _ => ?_)
    simp only [Function.comp]
    rw [pow_succ]
    ring

theorem monomialVal_cons {α : Type} [CommRing α] (xi : α) (xs : List α)
    (i : ℕ) (idx : List ℕ) :
    monomialVal (xi :: xs) (i :: idx) = xi ^ i * monomialVal xs idx := by
  simp [monomialVal, List.zipWith_cons_cons, List.prod_cons]

theorem algEval_cons {α : Type} [CommRing α] (xi : α) (xs : List α)
    (c : NpArray α) (m : ℕ) (s : List ℕ) (hs : c.shape = m :: s) :
    algEval (xi :: xs) c = algEval xs (polyvalStep xi c) := by
  have hstep : ∀ idx : List ℕ,
      (polyvalStep xi c).entry idx =
        ((List.range m).map fun i => c.entry (i :: idx) * xi ^ i).sum := by
    intro idx
    show (List.range (c.shape.headD 0)).foldr
        (fun i acc => c.entry (i :: idx) + xi * acc) 0 = _
    rw [hs]
    exact horner_eq_sum m (fun i => c.entry (i :: idx)) xi
  have hshape : (polyvalStep xi c).shape = s := by
    show c.shape.tail = s
    rw [hs, List.tail_cons]
  calc
    algEval (xi :: xs) c
        = ((List.range m).map fun i =>
            ((indexTuples s).map fun idx =>
              c.entry (i :: idx) * (xi ^ i * monomialVal xs idx)).sum).sum := by
          unfold algEval
          rw [hs]
          show (((List.range m).flatMap fun i =>
              (indexTuples s).map (i :: ·)).map fun idx =>
              c.entry idx * monomialVal (xi :: xs) idx).sum = _
          rw [sum_map_flatMap]
          refine congrArg List.sum (List.map_congr_left fun i _ => ?_)
          rw [List.map_map]
          refine congrArg List.sum (List.map_congr_left fun idx _ => ?_)
          simp only [Function.comp]
          rw [monomialVal_cons]
    _ = ((indexTuples s).map fun idx =>
            ((List.range m).map fun i =>
              c.entry (i :: idx) * (xi ^ i * monomialVal xs idx)).sum).sum :=
          lsum_swap _ _ _
    _ = algEval xs (polyvalStep xi c) := by
          unfold algEval
          rw [hshape]
          refine congrArg List.sum (List.map_congr_left fun idx _ => ?_)
          rw [hstep idx, ← List.sum_map_mul_right]
          refine congrArg List.sum (List.map_congr_left fun i _ => ?_)
          ring

theorem polyval_loop {α : Type} [CommRing α] (x : List α) (c : NpArray α)
    (h : x.length = c.shape.length) :
    (x.foldl (fun c xi => polyvalStep xi c) c).entry [] = algEval x c := by
  induction x generalizing c with
  | nil =>
    have hshape : c.shape = [] :=
      List.eq_nil_of_length_eq_zero (by simpa using h.symm)
    simp [algEval, hshape, indexTuples, monomialVal]
  | cons xi xs ih =>
    cases hs : c.shape with
    | nil => rw [hs] at h; simp at h
    | cons m s =>
      have hstepswf : xs.length = (polyvalStep xi c).shape.length := by
        show xs.length = c.shape.tail.length
        rw [hs]
        simpa using Nat.succ_injective (by simpa [hs] using h)
      rw [List.foldl_cons, ih _ hstepswf, algEval_cons xi xs c m s hs]

theorem polyval_eq_algEval {α : Type} [CommRing α] (x : List α)
    (c : NpArray α) (h : x.length = c.shape.length) :
    polyval x c = Except.ok (algEval x c) := by
  rw [polyval, if_neg (by simp [h]), polyval_loop x c h]

theorem le_foldr_max {a : ℕ} {L : List ℕ} (h : a ∈ L) :
    a ≤ L.foldr max 0 := by
  induction L with
  | nil => cases h
  | cons b L ih =>
    rcases List.mem_cons.mp h with rfl | h'
    · exact le_max_left _ _
    · exact le_trans (ih h') (le_max_right _ _)

theorem exists_term_of_coeff_ne_zero {α : Type} [AddCommMonoid α]
    [DecidableEq α] {p : MPoly α} {e : List ℕ} (h : p.coeff e ≠ 0) :
    ∃ t ∈ p.terms, t.1 = e := by
  by_contra hne
  push_neg at hne
  refine h (List.sum_eq_zero fun v hv => ?_)
  obtain ⟨t, ht, rfl⟩ := List.mem_map.mp hv
  simp [hne t ht]

theorem sum_le_totalDegree {α : Type} [AddCommMonoid α] [DecidableEq α]
    {p : MPoly α} {e : List ℕ} (h : p.coeff e ≠ 0) :
    e.sum ≤ p.totalDegree := by
  obtain ⟨t, ht, rfl⟩ := exists_term_of_coeff_ne_zero h
  refine le_foldr_max (List.mem_map.mpr ⟨t.1, ?_, rfl⟩)
  exact List.mem_filter.mpr ⟨List.mem_map.mpr ⟨t, ht, rfl⟩, by simpa using h⟩

theorem coeff_eq_zero_of_length_ne {α : Type} [AddCommMonoid α] {n : ℕ}
    {p : MPoly α} (hwf : p.wf n) {e : List ℕ} (he : e.length ≠ n) :
    p.coeff e = 0 := by
  refine List.sum_eq_zero fun v hv => ?_
  obtain ⟨t, ht, rfl⟩ := List.mem_map.mp hv
  have : t.1 ≠ e := fun h => he (h ▸ hwf t ht)
  simp [this]

theorem coeff_np_array_to_poly {α : Type} [AddCommMonoid α] {c : NpArray α}
    {n : ℕ} (hn : c.shape.length = n) (e : List ℕ) :
    (np_array_to_poly c n).coeff e =
      if e ∈ indexTuples c.shape then c.entry e else 0 := by
  unfold np_array_to_poly MPoly.coeff
  rw [List.map_map]
  have hmc : (indexTuples c.shape).map
        ((fun t : List ℕ × α => if t.1 = e then t.2 else 0) ∘
          fun idx => (idx.take n, c.entry idx)) =
      (indexTuples c.shape).map fun idx =>
        if idx = e then c.entry idx else 0 := by
    refine List.map_congr_left fun idx hidx => ?_
    have : idx.take n = idx :=
      List.take_of_length_le (le_of_eq (by rw [length_of_mem_indexTuples hidx, hn]))
    simp only [Function.comp]
    rw [this]
  rw [hmc, lsum_ite_single (nodup_indexTuples c.shape)]

theorem forall₂_lt_replicate {e : List ℕ} {n m : ℕ} (hlen : e.length = n)
    (hbound : ∀ a ∈ e, a < m) :
    List.Forall₂ (· < ·) e (List.replicate n m) := by
  subst hlen
  induction e with
  | nil => exact List.Forall₂.nil
  | cons a e ih =>
    rw [List.length_cons, List.replicate_succ]
    exact List.Forall₂.cons (hbound a (List.mem_cons_self a e))
      (ih fun b hb => hbound b (List.mem_cons_of_mem a hb))

theorem sum_map_ite_filter {α β : Type} [AddCommMonoid β] (L : List α)
    (P : α → Prop) [DecidablePred P] (f : α → β) :
    (L.map fun x => if P x then f x else 0).sum =
      ((L.filter fun x => P x).map f).sum := by
  induction L with
  | nil => rfl
  | cons a L ih =>
    by_cases h : P a
    · simp [h, ih, List.filter_cons, List.sum_cons]
    · simp [h, ih, List.filter_cons]

/-- C1: for every symbolic polynomial `p` whose variables all lie in the
ordered variable list (a well-formed polynomial over the `n` variables),
converting `p` to a dense coefficient array with `poly_to_np_array` and
converting that array back with `np_array_to_poly` yields a polynomial
symbolically equal to `p`. -/
theorem poly_array_roundtrip {α : Type} [AddCommMonoid α] [DecidableEq α]
    (n : ℕ) (p : MPoly α) (hwf : p.wf n) :
    MPoly.eqv (np_array_to_poly (poly_to_np_array_core p n) n) p := by
  intro e
  have hn : (poly_to_np_array_core p n).shape.length = n := by
    simp [poly_to_np_array_core]
  rw [coeff_np_array_to_poly hn e]
  by_cases he : e ∈ indexTuples (poly_to_np_array_core p n).shape
  · rw [if_pos he]; rfl
  · rw [if_neg he]
    by_cases hz : p.coeff e = 0
    · rw [hz]
    · exfalso
      apply he
      have hlen : e.length = n := by
        by_contra hne
        exact hz (coeff_eq_zero_of_length_ne hwf hne)
      have hbound : ∀ a ∈ e, a < p.totalDegree + 1 := fun a ha =>
        Nat.lt_succ_of_le (le_trans
          (List.single_le_sum (fun y _ => Nat.zero_le y) a ha)
          (sum_le_totalDegree hz))
      show e ∈ indexTuples (List.replicate n (p.totalDegree + 1))
      exact mem_indexTuples.mpr (forall₂_lt_replicate hlen hbound)

/-- Witness for C1, on the polynomial `5x² + 2xy + 3y² + z³` of the
repository's own test. -/
theorem poly_array_roundtrip_witness :
    MPoly.wf 3
      (⟨[([2,0,0], (5:ℚ)), ([1,1,0], 2), ([0,2,0], 3), ([0,0,3], 1)]⟩ :
        MPoly ℚ) ∧
    MPoly.eqv
      (np_array_to_poly
        (poly_to_np_array_core
          (⟨[([2,0,0], (5:ℚ)), ([1,1,0], 2), ([0,2,0], 3), ([0,0,3], 1)]⟩ :
            MPoly ℚ) 3) 3)
      (⟨[([2,0,0], (5:ℚ)), ([1,1,0], 2), ([0,2,0], 3), ([0,0,3], 1)]⟩ :
        MPoly ℚ) :=
  ⟨by decide, poly_array_roundtrip 3 _ (by decide)⟩

/-- C2: for every coefficient array with positive axis lengths (every array
produced by `poly_to_np_array` has sides `D+1 ≥ 1`) and every point with one
component per axis, `polyval` returns exactly the direct algebraic evaluation
`Σ c[i1,...,in] * x[0]^i1 * ... * x[n-1]^in`. -/
theorem polyval_eq_direct_sum {α : Type} [CommRing α] (x : List α)
    (c : NpArray α) (h : x.length = c.shape.length)
    (_hpos : ∀ m ∈ c.shape, 0 < m) :
    polyval x c = Except.ok (algEval x c) :=
  polyval_eq_algEval x c h

/-- Witness for C2, on the array of `1 + 2xy` at the point `(2, 3)`. -/
theorem polyval_eq_direct_sum_witness :
    polyval [(2:ℤ), 3]
        ⟨[2, 2], fun idx => if idx = [0,0] then 1
          else if idx = [1,1] then 2 else 0⟩ =
      Except.ok (algEval [(2:ℤ), 3]
        ⟨[2, 2], fun idx => if idx = [0,0] then 1
          else if idx = [1,1] then 2 else 0⟩) :=
  polyval_eq_direct_sum [(2:ℤ), 3] _ rfl (by decide)

/-- The 2×2 array holding the single monomial `x*y`: entry `c[1,1] = 1`,
all others `0`.  Its trailing slices (index 1 along either axis) are not
all-zero, and the represented polynomial's total degree is 2, so no slice
index lies beyond the total degree at all. -/
def cexArrayC3 : NpArray ℤ :=
  ⟨[2, 2], fun idx => if idx = [1, 1] then 1 else 0⟩

/-- Counterexample to C3 as stated: `cexArrayC3` is cubic with no all-zero
trailing slice beyond the represented polynomial's true total degree (its
only nonzero entry `c[1,1] = 1` lies in both trailing slices), yet the
round-trip through `np_array_to_poly` and `poly_to_np_array` produces a 3×3
array — the polynomial `x*y` has total degree 2 — which is not element-wise
equal to the 2×2 input. -/
theorem array_poly_roundtrip_fails :
    cexArrayC3.entry [1, 1] ≠ 0 ∧
    (poly_to_np_array_core (np_array_to_poly cexArrayC3 2) 2).shape =
      [3, 3] ∧
    ¬ NpArray.eqv (poly_to_np_array_core (np_array_to_poly cexArrayC3 2) 2)
        cexArrayC3 := by
  decide

/-- C3 amended: for a dense cubic array `c` of shape `(m,...,m)` whose side
`m` is exactly one more than the total degree of the polynomial it
represents (so that `poly_to_np_array`, which always sizes to total degree,
reproduces the shape), `poly_to_np_array` applied to
`np_array_to_poly(c, vars)` returns an array element-wise equal to `c`. -/
theorem array_poly_roundtrip_of_exact_degree {α : Type} [AddCommMonoid α]
    [DecidableEq α] (n m : ℕ) (c : NpArray α)
    (hshape : c.shape = List.replicate n m)
    (hdeg : m = (np_array_to_poly c n).totalDegree + 1) :
    NpArray.eqv (poly_to_np_array_core (np_array_to_poly c n) n) c := by
  have hn : c.shape.length = n := by simp [hshape]
  have hsh : (poly_to_np_array_core (np_array_to_poly c n) n).shape =
      c.shape := by
    show List.replicate n _ = c.shape
    rw [hshape, ← hdeg]
  refine ⟨hsh, fun idx hidx => ?_⟩
  rw [hsh] at hidx
  show (np_array_to_poly c n).coeff idx = c.entry idx
  rw [coeff_np_array_to_poly hn idx, if_pos hidx]

/-- Witness for the amended C3, on the 2×2 array of `1 + 2y + 3x` (total
degree 1, side 2). -/
theorem array_poly_roundtrip_of_exact_degree_witness :
    NpArray.eqv
      (poly_to_np_array_core
        (np_array_to_poly
          (⟨[2, 2], fun idx => if idx = [0,0] then 1
            else if idx = [0,1] then 2
            else if idx = [1,0] then 3 else 0⟩ : NpArray ℤ) 2) 2)
      (⟨[2, 2], fun idx => if idx = [0,0] then 1
        else if idx = [0,1] then 2
        else if idx = [1,0] then 3 else 0⟩ : NpArray ℤ) :=
  array_poly_roundtrip_of_exact_degree 2 2 _ (by decide) (by decide)

/-- C4: `polyval` fails with the dimension-mismatch error exactly when the
length of the point differs from the number of axes of the coefficient
array; when they agree the check never triggers and evaluation proceeds to a
result. -/
theorem polyval_error_iff_dim_mismatch {α : Type} [CommRing α] (x : List α)
    (c : NpArray α) :
    (polyval x c = Except.error NpError.dimensionMismatch ↔
      x.length ≠ c.shape.length) ∧
    (x.length = c.shape.length → ∃ v, polyval x c = Except.ok v) := by
  refine ⟨⟨fun h hlen => ?_, fun hne => ?_⟩, fun hlen => ?_⟩
  · rw [polyval, if_neg (by simp [hlen])] at h
    cases h
  · rw [polyval, if_pos hne]
  · exact ⟨_, by rw [polyval, if_neg (by simp [hlen])]⟩

/-- Witness for C4, on a 1-axis array: a point of matching length evaluates,
and the error characterisation holds there. -/
theorem polyval_error_iff_dim_mismatch_witness :
    (polyval [(2:ℚ)] ⟨[2], fun idx => if idx = [1] then 3 else 1⟩ =
        Except.error NpError.dimensionMismatch ↔
      [(2:ℚ)].length ≠ ([2] : List ℕ).length) ∧
    (∃ v, polyval [(2:ℚ)] ⟨[2], fun idx => if idx = [1] then 3 else 1⟩ =
        Except.ok v) :=
  ⟨(polyval_error_iff_dim_mismatch [(2:ℚ)] _).1,
   (polyval_error_iff_dim_mismatch [(2:ℚ)] _).2 rfl⟩

theorem sympyPoly_error_of_bad (vs : List ℕ) (e : SymExpr)
    (h : e.badFor vs = true) :
    sympyPoly vs e = Except.error SympyError.invalidPolynomial := by
  induction e with
  | const a => simp [SymExpr.badFor] at h
  | svar v =>
    simp only [SymExpr.badFor, Bool.not_eq_true', decide_eq_false_iff_not]
      at h
    simp [sympyPoly, h]
  | add a b iha ihb =>
    simp only [SymExpr.badFor, Bool.or_eq_true] at h
    rw [sympyPoly]
    rcases h with ha | hb
    · rw [iha ha]
    · cases hsa : sympyPoly vs a with
      | error err => cases err; rfl
      | ok pa => rw [ihb hb]
  | mul a b iha ihb =>
    simp only [SymExpr.badFor, Bool.or_eq_true] at h
    rw [sympyPoly]
    rcases h with ha | hb
    · rw [iha ha]
    · cases hsa : sympyPoly vs a with
      | error err => cases err; rfl
      | ok pa => rw [ihb hb]
  | pow b q ihb =>
    simp only [SymExpr.badFor, Bool.or_eq_true, Bool.and_eq_true,
      bne_iff_ne, decide_eq_true_eq] at h
    rw [sympyPoly]
    rcases h with hb | ⟨hvar, hq⟩
    · rw [ihb hb]
    · cases hsb : sympyPoly vs b with
      | error err => cases err; rfl
      | ok pb =>
        simp [hvar]
        intro hden
        rcases hq with hden' | hneg
        · exact absurd hden hden'
        · exact hneg
  | div a b iha ihb =>
    simp only [SymExpr.badFor, Bool.or_eq_true] at h
    rw [sympyPoly]
    rcases h with (ha | hb) | hvar
    · rw [iha ha]
    · cases hsa : sympyPoly vs a with
      | error err => cases err; rfl
      | ok pa => rw [ihb hb]
    · cases hsa : sympyPoly vs a with
      | error err => cases err; rfl
      | ok pa =>
        cases hsb : sympyPoly vs b with
        | error err => cases err; rfl
        | ok pb => simp [hvar]

/-- C5 (spec-modelled `sympy.poly` layer): `poly_to_np_array` fails with the
`InvalidPolynomial` error whenever the input expression is not a polynomial
in exactly the given variables — in particular when it contains a variable
outside the supplied list, a negative or fractional exponent on a
variable-containing base, or a division by a variable-containing
expression (`SymExpr.badFor` collects exactly these cases, at any depth). -/
theorem poly_to_np_array_invalid (vs : List ℕ) (e : SymExpr)
    (h : e.badFor vs = true) :
    poly_to_np_array vs e = Except.error SympyError.invalidPolynomial := by
  rw [poly_to_np_array, sympyPoly_error_of_bad vs e h]
  rfl

/-- Witness for C5, on the expression `x + 1/x + y^(-2)` over the single
variable list `[x]`: it divides by a variable, raises a variable to a
negative power, and mentions the variable `y` outside the list. -/
theorem poly_to_np_array_invalid_witness :
    poly_to_np_array [0]
        (SymExpr.add (SymExpr.svar 0)
          (SymExpr.add (SymExpr.div (SymExpr.const 1) (SymExpr.svar 0))
            (SymExpr.pow (SymExpr.svar 1) (-2)))) =
      Except.error SympyError.invalidPolynomial :=
  poly_to_np_array_invalid [0] _ (by decide)

/-- C6: for every polynomial over `n` variables, the array returned by
`poly_to_np_array` is cubic — `n` axes, each of length `D+1` with `D` the
total degree — and its entry at every in-shape index tuple whose exponent
sum exceeds `D` is zero. -/
theorem poly_to_np_array_cubic {α : Type} [AddCommMonoid α] [DecidableEq α]
    (n : ℕ) (p : MPoly α) (_hwf : p.wf n) :
    (poly_to_np_array_core p n).shape =
      List.replicate n (p.totalDegree + 1) ∧
    ∀ idx ∈ indexTuples (poly_to_np_array_core p n).shape,
      p.totalDegree < idx.sum → (poly_to_np_array_core p n).entry idx = 0 := by
  refine ⟨rfl, fun idx _ hgt => ?_⟩
  by_contra h
  have hne : p.coeff idx ≠ 0 := h
  exact absurd (sum_le_totalDegree hne) (not_le.mpr hgt)

/-- Witness for C6, on `x*y` over two variables: the array is 3×3 and the
entry at the unused higher-order index `(2,1)` is zero. -/
theorem poly_to_np_array_cubic_witness :
    (poly_to_np_array_core (⟨[([1,1], (1:ℤ))]⟩ : MPoly ℤ) 2).shape =
      List.replicate 2
        ((⟨[([1,1], (1:ℤ))]⟩ : MPoly ℤ).totalDegree + 1) ∧
    (poly_to_np_array_core (⟨[([1,1], (1:ℤ))]⟩ : MPoly ℤ) 2).entry [2,1] =
      0 :=
  ⟨(poly_to_np_array_cubic 2 _ (by decide)).1,
   (poly_to_np_array_cubic 2 (⟨[([1,1], (1:ℤ))]⟩ : MPoly ℤ) (by decide)).2
     [2,1] (by decide) (by decide)⟩

/-- C7: converting the zero polynomial (every canonical coefficient zero)
over `n` variables yields an all-zero array of shape `(1,)*n`, and `polyval`
of that array at any point of `n` components returns `0`. -/
theorem zero_poly_to_array {α : Type} [CommRing α] [DecidableEq α]
    (n : ℕ) (p : MPoly α) (hz : ∀ e, p.coeff e = 0) (x : List α)
    (hx : x.length = n) :
    (poly_to_np_array_core p n).shape = List.replicate n 1 ∧
    (∀ idx, (poly_to_np_array_core p n).entry idx = 0) ∧
    polyval x (poly_to_np_array_core p n) = Except.ok 0 := by
  have hD : p.totalDegree = 0 := by
    unfold MPoly.totalDegree
    have hfil : (p.terms.map Prod.fst).filter (fun e => p.coeff e ≠ 0) = [] := by
      rw [List.filter_eq_nil_iff]
      intro e _
      simp [hz e]
    rw [hfil]
    rfl
  have hshape : (poly_to_np_array_core p n).shape = List.replicate n 1 := by
    show List.replicate n (p.totalDegree + 1) = _
    rw [hD]
  refine ⟨hshape, fun idx => hz idx, ?_⟩
  have hlen : x.length = (poly_to_np_array_core p n).shape.length := by
    rw [hshape, List.length_replicate, hx]
  rw [polyval_eq_algEval x _ hlen]
  have hzero : algEval x (poly_to_np_array_core p n) = 0 := by
    refine List.sum_eq_zero fun v hv => ?_
    obtain ⟨idx, _, rfl⟩ := List.mem_map.mp hv
    show p.coeff idx * monomialVal x idx = 0
    rw [hz idx, zero_mul]
  rw [hzero]

/-- Witness for C7, with three variables and the empty term list as the zero
polynomial, evaluated at the point `(5, 7, -2)`. -/
theorem zero_poly_to_array_witness :
    (poly_to_np_array_core (⟨[]⟩ : MPoly ℤ) 3).shape =
      List.replicate 3 1 ∧
    (∀ idx, (poly_to_np_array_core (⟨[]⟩ : MPoly ℤ) 3).entry idx = 0) ∧
    polyval [5, 7, -2] (poly_to_np_array_core (⟨[]⟩ : MPoly ℤ) 3) =
      Except.ok 0 :=
  zero_poly_to_array 3 (⟨[]⟩ : MPoly ℤ) (fun _ => rfl) [5, 7, -2] rfl

/-- The polynomial `1 + 2i*x`, whose constant coefficient is exactly real
and whose `x` coefficient has imaginary part `2`. -/
def cexPolyC8 : MPoly (CQ ℤ) :=
  ⟨[([0], ⟨1, 0⟩), ([1], ⟨0, 2⟩)]⟩

/-- Counterexample to C8 as stated: in the array of `1 + 2i*x` the constant
coefficient's imaginary part is within the tolerance `1` of zero, yet the
array that `poly_to_np_array` returns is still the complex one
(`np.real_if_close` converts per array, not per coefficient), so that
near-real coefficient is not returned as a real value. -/
theorem real_if_close_not_elementwise :
    |((poly_to_np_array_core cexPolyC8 1).entry [0]).im| ≤ 1 ∧
    (poly_to_np_array_cplx 1 cexPolyC8 1).isRight = true := by
  decide

/-- C8 amended: `np.real_if_close` is all-or-nothing per array: when every
coefficient's imaginary part is within tolerance the whole array is returned
as the real array of real parts; when any coefficient's imaginary part
exceeds the tolerance the whole array — its near-real coefficients
included — is returned unchanged in the complex type. -/
theorem real_if_close_all_or_nothing {α : Type} [LinearOrderedRing α]
    [DecidableEq α] (tol : α) (p : MPoly (CQ α)) (n : ℕ) :
    ((∀ idx ∈ indexTuples (poly_to_np_array_core p n).shape,
        |((poly_to_np_array_core p n).entry idx).im| ≤ tol) →
      poly_to_np_array_cplx tol p n =
        Sum.inl ⟨(poly_to_np_array_core p n).shape,
          fun idx => ((poly_to_np_array_core p n).entry idx).re⟩) ∧
    ((∃ idx ∈ indexTuples (poly_to_np_array_core p n).shape,
        tol < |((poly_to_np_array_core p n).entry idx).im|) →
      poly_to_np_array_cplx tol p n =
        Sum.inr (poly_to_np_array_core p n)) := by
  constructor
  · intro h
    rw [poly_to_np_array_cplx, np_real_if_close, if_pos h]
  · rintro ⟨idx, hidx, hgt⟩
    rw [poly_to_np_array_cplx, np_real_if_close, if_neg]
    intro hall
    exact absurd (hall idx hidx) (not_le.mpr hgt)

/-- Witness for the amended C8: the all-real array of `3 + x` is returned
real, and the mixed array of `1 + 2i*x` is returned complex, unchanged. -/
theorem real_if_close_all_or_nothing_witness :
    poly_to_np_array_cplx 1 (⟨[([0], ⟨3, 0⟩), ([1], ⟨1, 0⟩)]⟩ : MPoly (CQ ℤ))
        1 =
      Sum.inl ⟨(poly_to_np_array_core
          (⟨[([0], ⟨3, 0⟩), ([1], ⟨1, 0⟩)]⟩ : MPoly (CQ ℤ)) 1).shape,
        fun idx => ((poly_to_np_array_core
          (⟨[([0], ⟨3, 0⟩), ([1], ⟨1, 0⟩)]⟩ : MPoly (CQ ℤ)) 1).entry
            idx).re⟩ ∧
    poly_to_np_array_cplx 1 cexPolyC8 1 =
      Sum.inr (poly_to_np_array_core cexPolyC8 1) :=
  ⟨(real_if_close_all_or_nothing 1 _ 1).1 (by decide),
   (real_if_close_all_or_nothing 1 cexPolyC8 1).2 ⟨[1], by decide, by decide⟩⟩

/-- C9: `np_array_to_poly` accepts any rectangular coefficient array, cubic
or not: with one symbol per axis, the resulting polynomial's canonical
coefficient at each exponent tuple inside the shape (each axis iterated up
to its own length) is the array entry there, and is zero at every other
exponent tuple. -/
theorem np_array_to_poly_rectangular {α : Type} [AddCommMonoid α]
    (c : NpArray α) (n : ℕ) (hn : c.shape.length = n) (e : List ℕ) :
    (np_array_to_poly c n).coeff e =
      if e ∈ indexTuples c.shape then c.entry e else 0 :=
  coeff_np_array_to_poly hn e

/-- Witness for C9, on a non-cubic 2×3 array. -/
theorem np_array_to_poly_rectangular_witness :
    (np_array_to_poly
        (⟨[2, 3], fun idx => if idx = [1,2] then (7:ℤ) else 0⟩ :
          NpArray ℤ) 2).coeff [1,2] =
      if [1,2] ∈ indexTuples
          (⟨[2, 3], fun idx => if idx = [1,2] then (7:ℤ) else 0⟩ :
            NpArray ℤ).shape then
        (⟨[2, 3], fun idx => if idx = [1,2] then (7:ℤ) else 0⟩ :
          NpArray ℤ).entry [1,2]
      else 0 :=
  np_array_to_poly_rectangular
    (⟨[2, 3], fun idx => if idx = [1,2] then (7:ℤ) else 0⟩ : NpArray ℤ)
    2 rfl [1,2]

/-- C10: `np_array_to_poly` never compares the number of symbols with the
number of axes: when the array has more axes than there are symbols it
still returns a polynomial (the model is total, as the source loop is —
`enumerate(symbols)` reads only the first `len(symbols)` components of each
index tuple), and the coefficient of each monomial is the sum of the entries
at all index tuples agreeing with it on the first `n` components. -/
theorem np_array_to_poly_excess_axes {α : Type} [AddCommMonoid α]
    (c : NpArray α) (n : ℕ) (_hn : n < c.shape.length) (e : List ℕ) :
    (np_array_to_poly c n).coeff e =
      (((indexTuples c.shape).filter fun idx => idx.take n = e).map
        c.entry).sum := by
  unfold np_array_to_poly MPoly.coeff
  rw [List.map_map]
  have hcomp : ((fun t : List ℕ × α => if t.1 = e then t.2 else 0) ∘
      fun idx => (idx.take n, c.entry idx)) =
      fun idx => if idx.take n = e then c.entry idx else 0 := rfl
  rw [hcomp]
  exact sum_map_ite_filter _ _ _

/-- Witness for C10, on a 1×2 array read with a single symbol: the entries
at `(0,0)` and `(0,1)` are summed into the constant monomial. -/
theorem np_array_to_poly_excess_axes_witness :
    (np_array_to_poly
        (⟨[1, 2], fun idx => if idx = [0,0] then (3:ℤ) else 4⟩ :
          NpArray ℤ) 1).coeff [0] =
      (((indexTuples
          (⟨[1, 2], fun idx => if idx = [0,0] then (3:ℤ) else 4⟩ :
            NpArray ℤ).shape).filter fun idx => idx.take 1 = [0]).map
        (⟨[1, 2], fun idx => if idx = [0,0] then (3:ℤ) else 4⟩ :
          NpArray ℤ).entry).sum :=
  np_array_to_poly_excess_axes
    (⟨[1, 2], fun idx => if idx = [0,0] then (3:ℤ) else 4⟩ : NpArray ℤ)
    1 (by decide) [0]
